import Mathlib

/-!
Verification of the Madgwick AHRS filter (`ahrs/filters/madgwick.py`).

The two update operations `updateIMU` and `updateMARG` are embedded over the
real numbers.  Vectors are functions `Fin 3 → ℝ`, quaternions `Fin 4 → ℝ` in
`(w, x, y, z)` order, matching the `q[0] .. q[3]` indexing of the source.

NumPy's floating-point division of a vector by a zero scalar produces
non-finite components (NaN/inf) that poison every later value; the embedding
models such a poisoned quaternion as `none`, so the update functions return
`Option (Fin 4 → ℝ)`: `some r` exactly when the Python code returns a vector
of finite (real) values, `none` when the unguarded divisions would have
produced non-finite entries.

The in-place mutation of the caller-owned NumPy arrays (`a /= a_norm`,
`m /= m_norm`, `q /= ...`) is modelled by explicit state passing: the `proc`
variants return a record holding the final contents of every argument array.
-/

noncomputable section

/-- 3-vectors: accelerometer, gyroscope and magnetometer samples. -/
def V3 : Type := Fin 3 → ℝ

/-- 4-vectors: quaternions in `(w, x, y, z)` order. -/
def V4 : Type := Fin 4 → ℝ

instance : CoeFun V3 (fun _ => Fin 3 → ℝ) := ⟨fun v => v⟩

instance : CoeFun V4 (fun _ => Fin 4 → ℝ) := ⟨fun v => v⟩

/-- `np.linalg.norm` of a 3-vector: the Euclidean norm. -/
def norm3 (v : Fin 3 → ℝ) : ℝ := Real.sqrt (v 0 ^ 2 + v 1 ^ 2 + v 2 ^ 2)

/-- `np.linalg.norm` of a 4-vector: the Euclidean norm. -/
def norm4 (v : Fin 4 → ℝ) : ℝ := Real.sqrt (v 0 ^ 2 + v 1 ^ 2 + v 2 ^ 2 + v 3 ^ 2)

/-- Modelled from the spec: the Hamilton product `product(p, q)` of
§4.1 Quaternion Algebra.  The helper `q_prod` used by `madgwick.py` is
imported from `ahrs.common.orientation`, a module that is not part of the
sources; the spec specifies it as the (non-commutative) Hamilton product. -/
def q_prod (p q : Fin 4 → ℝ) : Fin 4 → ℝ :=
  ![p 0 * q 0 - p 1 * q 1 - p 2 * q 2 - p 3 * q 3,
    p 0 * q 1 + p 1 * q 0 + p 2 * q 3 - p 3 * q 2,
    p 0 * q 2 - p 1 * q 3 + p 2 * q 0 + p 3 * q 1,
    p 0 * q 3 + p 1 * q 2 - p 2 * q 1 + p 3 * q 0]

/-- Modelled from the spec: the quaternion conjugate `conjugate(q)` of
§4.1 Quaternion Algebra ("negates the vector part").  The helper `q_conj`
used by `madgwick.py` is imported from `ahrs.common.orientation`, which is
not part of the sources. -/
def q_conj (q : Fin 4 → ℝ) : Fin 4 → ℝ := ![q 0, -q 1, -q 2, -q 3]

/-- The error vector `F` of `Madgwick.updateIMU` (madgwick.py lines 65-67),
built from the normalized quaternion `q` and normalized accelerometer `a`. -/
def Fimu (q : Fin 4 → ℝ) (a : Fin 3 → ℝ) : Fin 3 → ℝ :=
  ![2 * (q 1 * q 3 - q 0 * q 2) - a 0,
    2 * (q 0 * q 1 + q 2 * q 3) - a 1,
    2 * (0.5 - q 1 ^ 2 - q 2 ^ 2) - a 2]

/-- The 3×4 matrix `J` of `Madgwick.updateIMU` (madgwick.py lines 68-70). -/
def Jimu (q : Fin 4 → ℝ) : Fin 3 → Fin 4 → ℝ :=
  ![![-2 * q 2, 2 * q 3, -2 * q 0, 2 * q 1],
    ![2 * q 1, 2 * q 0, 2 * q 3, 2 * q 2],
    ![0, -4 * q 1, -4 * q 2, 0]]

/-- The descent direction `step = J.T @ F` of `Madgwick.updateIMU`
(madgwick.py line 71). -/
def stepIMU (q : Fin 4 → ℝ) (a : Fin 3 → ℝ) : Fin 4 → ℝ :=
  fun j => ∑ i : Fin 3, Jimu q i j * Fimu q a i

/-- The gravity-prediction map: the measurement-independent part of the rows
of `F` in `Madgwick.updateIMU`, i.e. `Fimu q a i = gravPred q i - a i`. -/
def gravPred (q : Fin 4 → ℝ) : Fin 3 → ℝ :=
  ![2 * (q 1 * q 3 - q 0 * q 2),
    2 * (q 0 * q 1 + q 2 * q 3),
    2 * (0.5 - q 1 ^ 2 - q 2 ^ 2)]

/-- `Madgwick.updateIMU` (madgwick.py lines 29-78), value semantics: the
returned quaternion, `none` when a division of a zero vector by its zero
norm would have produced non-finite components. -/
def updateIMU (g a : Fin 3 → ℝ) (q : Fin 4 → ℝ) (beta samplePeriod : ℝ) :
    Option (Fin 4 → ℝ) :=
  if norm3 a = 0 then some q
  else
    let a1 : Fin 3 → ℝ := fun i => a i / norm3 a
    if norm4 q = 0 then none
    else
      let q1 : Fin 4 → ℝ := fun i => q i / norm4 q
      let step := stepIMU q1 a1
      if norm4 step = 0 then none
      else
        let step1 : Fin 4 → ℝ := fun i => step i / norm4 step
        let qDot : Fin 4 → ℝ :=
          fun i => 0.5 * q_prod q1 ![0, g 0, g 1, g 2] i - beta * step1 i
        let q2 : Fin 4 → ℝ := fun i => q1 i + qDot i * samplePeriod
        if norm4 q2 = 0 then none
        else some (fun i => q2 i / norm4 q2)

/-- The rotated magnetic field `h = q_prod(q, q_prod([0, mx, my, mz],
q_conj(q)))` of `Madgwick.updateMARG` (madgwick.py line 124). -/
def hvec (q m4 : Fin 4 → ℝ) : Fin 4 → ℝ := q_prod q (q_prod m4 (q_conj q))

/-- The reference field `b = [0.0, np.linalg.norm([h[1], h[2]]), 0.0, h[3]]`
of `Madgwick.updateMARG` (madgwick.py line 125). -/
def bVec (h : Fin 4 → ℝ) : Fin 4 → ℝ :=
  ![0, Real.sqrt (h 1 ^ 2 + h 2 ^ 2), 0, h 3]

/-- The 6-row error vector `F` of `Madgwick.updateMARG`
(madgwick.py lines 127-132). -/
def Fmarg (q : Fin 4 → ℝ) (a m : Fin 3 → ℝ) (b : Fin 4 → ℝ) : Fin 6 → ℝ :=
  ![2 * (q 1 * q 3 - q 0 * q 2) - a 0,
    2 * (q 0 * q 1 + q 2 * q 3) - a 1,
    2 * (0.5 - q 1 ^ 2 - q 2 ^ 2) - a 2,
    2 * b 1 * (0.5 - q 2 ^ 2 - q 3 ^ 2) + 2 * b 3 * (q 1 * q 3 - q 0 * q 2) - m 0,
    2 * b 1 * (q 1 * q 2 - q 0 * q 3) + 2 * b 3 * (q 0 * q 1 + q 2 * q 3) - m 1,
    2 * b 1 * (q 0 * q 2 + q 1 * q 3) + 2 * b 3 * (0.5 - q 1 ^ 2 - q 2 ^ 2) - m 2]

/-- The 6×4 matrix `J` of `Madgwick.updateMARG` (madgwick.py lines 133-138). -/
def Jmarg (q b : Fin 4 → ℝ) : Fin 6 → Fin 4 → ℝ :=
  ![![-2 * q 2, 2 * q 3, -2 * q 0, 2 * q 1],
    ![2 * q 1, 2 * q 0, 2 * q 3, 2 * q 2],
    ![0, -4 * q 1, -4 * q 2, 0],
    ![-2 * b 3 * q 2, 2 * b 3 * q 3,
      -4 * b 1 * q 2 - 2 * b 3 * q 0, -4 * b 1 * q 3 + 2 * b 3 * q 1],
    ![-2 * b 1 * q 3 + 2 * b 3 * q 1, 2 * b 1 * q 2 + 2 * b 3 * q 0,
      2 * b 1 * q 1 + 2 * b 3 * q 3, -2 * b 1 * q 0 + 2 * b 3 * q 2],
    ![2 * b 1 * q 2, 2 * b 1 * q 3 - 4 * b 3 * q 1,
      2 * b 1 * q 0 - 4 * b 3 * q 2, 2 * b 1 * q 1]]

/-- The descent direction `step = J.T @ F` of `Madgwick.updateMARG`
(madgwick.py line 139). -/
def stepMARG (q : Fin 4 → ℝ) (a m : Fin 3 → ℝ) (b : Fin 4 → ℝ) : Fin 4 → ℝ :=
  fun j => ∑ i : Fin 6, Jmarg q b i j * Fmarg q a m b i

/-- The tail of `Madgwick.updateMARG` after the reference field `b` has been
built (madgwick.py lines 127-146): descent step, gyro blending, integration
and final renormalization.  `q1`, `a1`, `m1` are the already-normalized
quaternion, accelerometer and magnetometer. -/
def margTail (g : Fin 3 → ℝ) (q1 : Fin 4 → ℝ) (a1 m1 : Fin 3 → ℝ)
    (b : Fin 4 → ℝ) (beta samplePeriod : ℝ) : Option (Fin 4 → ℝ) :=
  let step := stepMARG q1 a1 m1 b
  if norm4 step = 0 then none
  else
    let step1 : Fin 4 → ℝ := fun i => step i / norm4 step
    let qDot : Fin 4 → ℝ :=
      fun i => 0.5 * q_prod q1 ![0, g 0, g 1, g 2] i - beta * step1 i
    let q2 : Fin 4 → ℝ := fun i => q1 i + qDot i * samplePeriod
    if norm4 q2 = 0 then none
    else some (fun i => q2 i / norm4 q2)

/-- `Madgwick.updateMARG` (madgwick.py lines 80-146), value semantics: the
returned quaternion, `none` when a division of a zero vector by its zero
norm would have produced non-finite components. -/
def updateMARG (g a m : Fin 3 → ℝ) (q : Fin 4 → ℝ) (beta samplePeriod : ℝ) :
    Option (Fin 4 → ℝ) :=
  if norm3 a = 0 then some q
  else
    let a1 : Fin 3 → ℝ := fun i => a i / norm3 a
    if norm3 m = 0 then some q
    else
      let m1 : Fin 3 → ℝ := fun i => m i / norm3 m
      if norm4 q = 0 then none
      else
        let q1 : Fin 4 → ℝ := fun i => q i / norm4 q
        let h := hvec q1 ![0, m1 0, m1 1, m1 2]
        margTail g q1 a1 m1 (bVec h) beta samplePeriod

/-- Post-state of a call to `Madgwick.updateIMU`: the final contents of the
caller-owned NumPy arrays `a` and `q` (the function returns the very `q`
object it mutated, so the returned value is the `quat` field). -/
structure IMUPost where
  accel : Fin 3 → ℝ
  quat : Option (Fin 4 → ℝ)

/-- `Madgwick.updateIMU` with its frame effects made explicit: `a /= a_norm`
(line 59) and the sequence of in-place updates of `q` (lines 62, 76, 77)
mutate the caller's arrays; the record holds their contents after the call. -/
def updateIMUproc (g a : Fin 3 → ℝ) (q : Fin 4 → ℝ) (beta samplePeriod : ℝ) :
    IMUPost :=
  if norm3 a = 0 then ⟨a, some q⟩
  else ⟨fun i => a i / norm3 a, updateIMU g a q beta samplePeriod⟩

/-- Post-state of a call to `Madgwick.updateMARG`: the final contents of the
caller-owned NumPy arrays `a`, `m` and `q`. -/
structure MARGPost where
  accel : Fin 3 → ℝ
  mag : Fin 3 → ℝ
  quat : Option (Fin 4 → ℝ)

/-- `Madgwick.updateMARG` with its frame effects made explicit: `a /= a_norm`
(line 113), `m /= m_norm` (line 118) and the in-place updates of `q`
mutate the caller's arrays; the record holds their contents after the call.
Note that `a` is normalized before the magnetometer zero-norm check. -/
def updateMARGproc (g a m : Fin 3 → ℝ) (q : Fin 4 → ℝ)
    (beta samplePeriod : ℝ) : MARGPost :=
  if norm3 a = 0 then ⟨a, m, some q⟩
  else
    let a1 : Fin 3 → ℝ := fun i => a i / norm3 a
    if norm3 m = 0 then ⟨a1, m, some q⟩
    else ⟨a1, fun i => m i / norm3 m, updateMARG g a m q beta samplePeriod⟩


/-- Normalization of a 3-vector, as in `a /= np.linalg.norm(a)`. -/
def normalize3 (v : Fin 3 → ℝ) : Fin 3 → ℝ := fun i => v i / norm3 v

/-- Normalization of a 4-vector, as in `q /= np.linalg.norm(q)`. -/
def normalize4 (v : Fin 4 → ℝ) : Fin 4 → ℝ := fun i => v i / norm4 v

theorem normalize3_def (v : Fin 3 → ℝ) :
    normalize3 v = fun i => v i / norm3 v := rfl

theorem normalize4_def (v : Fin 4 → ℝ) :
    normalize4 v = fun i => v i / norm4 v := rfl

theorem norm4_nonneg (v : Fin 4 → ℝ) : 0 ≤ norm4 v := Real.sqrt_nonneg _

theorem norm4_normalize (v : Fin 4 → ℝ) (h : norm4 v ≠ 0) :
    norm4 (fun i => v i / norm4 v) = 1 := by
  have hS : (0:ℝ) ≤ v 0 ^ 2 + v 1 ^ 2 + v 2 ^ 2 + v 3 ^ 2 := by positivity
  have hsq : norm4 v ^ 2 = v 0 ^ 2 + v 1 ^ 2 + v 2 ^ 2 + v 3 ^ 2 :=
    Real.sq_sqrt hS
  have key : (v 0 / norm4 v) ^ 2 + (v 1 / norm4 v) ^ 2
      + (v 2 / norm4 v) ^ 2 + (v 3 / norm4 v) ^ 2 = 1 := by
    field_simp
    linarith [hsq]
  have e : norm4 (fun i => v i / norm4 v)
      = Real.sqrt ((v 0 / norm4 v) ^ 2 + (v 1 / norm4 v) ^ 2
          + (v 2 / norm4 v) ^ 2 + (v 3 / norm4 v) ^ 2) := rfl
  rw [e, key, Real.sqrt_one]

theorem norm3_smul (c : ℝ) (hc : 0 ≤ c) (a : Fin 3 → ℝ) :
    norm3 (fun i => c * a i) = c * norm3 a := by
  have e : norm3 (fun i => c * a i)
      = Real.sqrt (c ^ 2 * (a 0 ^ 2 + a 1 ^ 2 + a 2 ^ 2)) := by
    rw [show Real.sqrt (c ^ 2 * (a 0 ^ 2 + a 1 ^ 2 + a 2 ^ 2))
        = Real.sqrt ((c * a 0) ^ 2 + (c * a 1) ^ 2 + (c * a 2) ^ 2) from by
      ring_nf]
    rfl
  rw [e, Real.sqrt_mul (sq_nonneg c), Real.sqrt_sq hc, norm3]

/-- Unfolding of `updateIMU` on the non-degenerate path: the returned value
is the renormalization of `q1 + (0.5*q_prod(q1,[0,g]) - beta*step1)*dt`. -/
theorem updateIMU_unfold (g a : Fin 3 → ℝ) (q : Fin 4 → ℝ) (beta dt : ℝ)
    (ha : norm3 a ≠ 0) (hq : norm4 q ≠ 0)
    (hs : norm4 (stepIMU (normalize4 q) (normalize3 a)) ≠ 0)
    (hi : norm4 (fun i => normalize4 q i
        + (0.5 * q_prod (normalize4 q) ![0, g 0, g 1, g 2] i
           - beta * (stepIMU (normalize4 q) (normalize3 a) i
                      / norm4 (stepIMU (normalize4 q) (normalize3 a)))) * dt)
      ≠ 0) :
    updateIMU g a q beta dt
      = some (normalize4 (fun i => normalize4 q i
          + (0.5 * q_prod (normalize4 q) ![0, g 0, g 1, g 2] i
             - beta * (stepIMU (normalize4 q) (normalize3 a) i
                        / norm4 (stepIMU (normalize4 q) (normalize3 a)))) * dt)) := by
  simp only [normalize3_def, normalize4_def] at hs hi ⊢
  simp only [updateIMU]
  rw [if_neg ha, if_neg hq, if_neg hs, if_neg hi]

/-- Unfolding of `updateMARG` on the non-degenerate path up to the reference
field: the result is `margTail` applied to the normalized inputs and the
reference field `bVec` built from the rotated magnetometer reading `hvec`. -/
theorem updateMARG_unfold (g a m : Fin 3 → ℝ) (q : Fin 4 → ℝ) (beta dt : ℝ)
    (ha : norm3 a ≠ 0) (hm : norm3 m ≠ 0) (hq : norm4 q ≠ 0) :
    updateMARG g a m q beta dt
      = margTail g (normalize4 q) (normalize3 a) (normalize3 m)
          (bVec (hvec (normalize4 q)
            ![0, normalize3 m 0, normalize3 m 1, normalize3 m 2])) beta dt := by
  simp only [normalize3_def, normalize4_def]
  simp only [updateMARG]
  rw [if_neg ha, if_neg hm, if_neg hq]

/-- Unfolding of `margTail` on the non-degenerate path. -/
theorem margTail_unfold (g : Fin 3 → ℝ) (q1 : Fin 4 → ℝ) (a1 m1 : Fin 3 → ℝ)
    (b : Fin 4 → ℝ) (beta dt : ℝ)
    (hs : norm4 (stepMARG q1 a1 m1 b) ≠ 0)
    (hi : norm4 (fun i => q1 i
        + (0.5 * q_prod q1 ![0, g 0, g 1, g 2] i
           - beta * (stepMARG q1 a1 m1 b i / norm4 (stepMARG q1 a1 m1 b))) * dt)
      ≠ 0) :
    margTail g q1 a1 m1 b beta dt
      = some (normalize4 (fun i => q1 i
          + (0.5 * q_prod q1 ![0, g 0, g 1, g 2] i
             - beta * (stepMARG q1 a1 m1 b i / norm4 (stepMARG q1 a1 m1 b))) * dt)) := by
  simp only [normalize4_def] at hs hi ⊢
  simp only [margTail]
  rw [if_neg hs, if_neg hi]

/-- Concrete run of `updateIMU`: identity prior, accelerometer along x,
zero gyro, `beta = 3/4`, `samplePeriod = 1`; every intermediate norm is
rational, so the whole pipeline evaluates in closed form. -/
theorem updateIMU_eval : updateIMU ![0,0,0] ![1,0,0] ![1,0,0,0] (3/4) 1
    = some ![4/5, 0, -3/5, 0] := by
  have h4 : Real.sqrt 4 = 2 := by
    rw [show (4:ℝ) = 2 ^ 2 by norm_num]
    exact Real.sqrt_sq (by norm_num)
  have h25 : Real.sqrt (25/16) = 5/4 := by
    rw [show (25/16:ℝ) = (5/4) ^ 2 by norm_num]
    exact Real.sqrt_sq (by norm_num)
  simp only [updateIMU, stepIMU, Jimu, Fimu, q_prod, norm3, norm4]
  norm_num [Fin.sum_univ_three, Matrix.cons_val_zero, Matrix.cons_val_one,
    Matrix.head_cons, Matrix.cons_val_two, Matrix.cons_val_three,
    Matrix.tail_cons, Matrix.vecHead, Matrix.vecTail, h4, h25]
  funext i
  fin_cases i <;> norm_num

/-- Concrete run of `updateMARG` with the same gravity reference and a
magnetometer along x: the magnetic rows of `F` vanish, so the result agrees
with the IMU run. -/
theorem updateMARG_eval : updateMARG ![0,0,0] ![1,0,0] ![1,0,0] ![1,0,0,0] (3/4) 1
    = some ![4/5, 0, -3/5, 0] := by
  have e3 : norm3 ![1,0,0] = 1 := by
    simp [norm3]
  have e4 : norm4 ![1,0,0,0] = 1 := by
    simp [norm4]
  have eh : hvec ![1,0,0,0] ![0,1,0,0] = ![0,1,0,0] := by
    funext i
    fin_cases i <;>
      simp [hvec, q_prod, q_conj, Matrix.cons_val_zero, Matrix.cons_val_one,
        Matrix.head_cons, Matrix.cons_val_two, Matrix.cons_val_three,
        Matrix.tail_cons, Matrix.vecHead, Matrix.vecTail]
  have eb : bVec ![0,1,0,0] = ![0,1,0,0] := by
    funext i
    fin_cases i <;>
      simp [bVec, Matrix.cons_val_zero, Matrix.cons_val_one,
        Matrix.head_cons, Matrix.cons_val_two, Matrix.cons_val_three,
        Matrix.tail_cons, Matrix.vecHead, Matrix.vecTail]
  have es : stepMARG ![1,0,0,0] ![1,0,0] ![1,0,0] ![0,1,0,0] = ![0,0,2,0] := by
    funext j
    fin_cases j <;>
      norm_num [stepMARG, Jmarg, Fmarg, Fin.sum_univ_succ,
        Matrix.cons_val_zero, Matrix.cons_val_one, Matrix.head_cons,
        Matrix.cons_val_two, Matrix.cons_val_three, Matrix.cons_val_succ,
        Matrix.tail_cons, Matrix.vecHead, Matrix.vecTail]
  have es4 : norm4 ![0,0,2,0] = 2 := by
    rw [show norm4 ![0,0,2,0] = Real.sqrt 4 by norm_num [norm4],
      show (4:ℝ) = 2 ^ 2 by norm_num]
    exact Real.sqrt_sq (by norm_num)
  have h25 : Real.sqrt (25/16) = 5/4 := by
    rw [show (25/16:ℝ) = (5/4) ^ 2 by norm_num]
    exact Real.sqrt_sq (by norm_num)
  simp only [updateMARG, e3, e4, div_one]
  norm_num
  simp only [eh, eb, margTail, es, es4]
  norm_num [q_prod, h25]
  constructor
  · norm_num [norm4, h25]
  · funext i
    fin_cases i <;> norm_num [norm4, h25]

/-- C1: the spec requires a zero-norm descent direction to be skipped
(`step = 0`, gyro-only integration).  The code instead divides `step` by its
zero norm (`step /= np.linalg.norm(step)`, madgwick.py lines 72 and 140,
unguarded), which poisons the quaternion with NaNs: at the degenerate input
`accel = [0,0,1]`, `q = identity` (and `mag = [1,0,0]` for MARG) both
updates produce a non-finite result, modelled as `none`, instead of the
gyro-only integration the spec mandates. -/
theorem degenerate_gradient_poisons_update :
    updateIMU ![1,2,3] ![0,0,1] ![1,0,0,0] (1/10) (1/256) = none
  ∧ updateMARG ![1,2,3] ![0,0,1] ![1,0,0] ![1,0,0,0] (1/10) (1/256) = none := by
  have e3 : norm3 ![0,0,1] = 1 := by
    simp [norm3]
  have e3m : norm3 ![1,0,0] = 1 := by
    simp [norm3]
  have e4 : norm4 ![1,0,0,0] = 1 := by
    simp [norm4]
  have e40 : norm4 ![0,0,0,0] = 0 := by
    simp [norm4]
  constructor
  · have es : stepIMU ![1,0,0,0] ![0,0,1] = ![0,0,0,0] := by
      funext j
      fin_cases j <;>
        norm_num [stepIMU, Jimu, Fimu, Fin.sum_univ_three,
          Matrix.cons_val_zero, Matrix.cons_val_one, Matrix.head_cons,
          Matrix.cons_val_two, Matrix.cons_val_three,
          Matrix.tail_cons, Matrix.vecHead, Matrix.vecTail]
    simp only [updateIMU, e3, e4, div_one]
    norm_num
    simp only [es, e40]
    simp
  · have eh : hvec ![1,0,0,0] ![0,1,0,0] = ![0,1,0,0] := by
      funext i
      fin_cases i <;>
        simp [hvec, q_prod, q_conj, Matrix.cons_val_zero, Matrix.cons_val_one,
          Matrix.head_cons, Matrix.cons_val_two, Matrix.cons_val_three,
          Matrix.tail_cons, Matrix.vecHead, Matrix.vecTail]
    have eb : bVec ![0,1,0,0] = ![0,1,0,0] := by
      funext i
      fin_cases i <;>
        simp [bVec, Matrix.cons_val_zero, Matrix.cons_val_one,
          Matrix.head_cons, Matrix.cons_val_two, Matrix.cons_val_three,
          Matrix.tail_cons, Matrix.vecHead, Matrix.vecTail]
    have es : stepMARG ![1,0,0,0] ![0,0,1] ![1,0,0] ![0,1,0,0] = ![0,0,0,0] := by
      funext j
      fin_cases j <;>
        norm_num [stepMARG, Jmarg, Fmarg, Fin.sum_univ_succ,
          Matrix.cons_val_zero, Matrix.cons_val_one, Matrix.head_cons,
          Matrix.cons_val_two, Matrix.cons_val_three, Matrix.cons_val_succ,
          Matrix.tail_cons, Matrix.vecHead, Matrix.vecTail]
    simp only [updateMARG, e3, e3m, e4, div_one]
    norm_num
    simp only [eh, eb, margTail, es, e40]
    norm_num

/-- C2: whenever the reference norms are non-zero and the update actually
returns a quaternion (no NaN poisoning), that quaternion has unit norm —
for any prior `q`, pre-normalized or not, and any configuration. -/
theorem update_unit_norm (g a m : Fin 3 → ℝ) (q : Fin 4 → ℝ)
    (beta dt : ℝ) (r s : Fin 4 → ℝ) :
    (norm3 a ≠ 0 → updateIMU g a q beta dt = some r → norm4 r = 1)
  ∧ (norm3 a ≠ 0 → norm3 m ≠ 0 →
      updateMARG g a m q beta dt = some s → norm4 s = 1) := by
  constructor
  · intro ha h
    simp only [updateIMU] at h
    rw [if_neg ha] at h
    split_ifs at h with h1 h2 h3
    have hr := Option.some.inj h
    subst hr
    exact norm4_normalize _ h3
  · intro ha hm h
    simp only [updateMARG] at h
    rw [if_neg ha, if_neg hm] at h
    split_ifs at h with h1
    simp only [margTail] at h
    split_ifs at h with h2 h3
    have hs := Option.some.inj h
    subst hs
    exact norm4_normalize _ h3

/-- C2 witness: a concrete non-degenerate run of each update; the returned
quaternion `(4/5, 0, -3/5, 0)` has norm exactly 1. -/
theorem update_unit_norm_app : norm4 ![4/5, 0, -3/5, 0] = 1 ∧ norm4 ![4/5, 0, -3/5, 0] = 1 :=
  ⟨(update_unit_norm ![0,0,0] ![1,0,0] ![1,0,0] ![1,0,0,0] (3/4) 1
      ![4/5, 0, -3/5, 0] ![4/5, 0, -3/5, 0]).1
    (by simp [norm3]) updateIMU_eval,
   (update_unit_norm ![0,0,0] ![1,0,0] ![1,0,0] ![1,0,0,0] (3/4) 1
      ![4/5, 0, -3/5, 0] ![4/5, 0, -3/5, 0]).2
    (by simp [norm3]) (by simp [norm3]) updateMARG_eval⟩

/-- C3: a zero-norm accelerometer (IMU and MARG) or zero-norm magnetometer
(MARG) makes the update return the prior quaternion unchanged, for every
gyro sample, prior quaternion and configuration — a soft no-op. -/
theorem zero_reference_is_noop (g a m : Fin 3 → ℝ) (q : Fin 4 → ℝ)
    (beta dt : ℝ) :
    (norm3 a = 0 → updateIMU g a q beta dt = some q)
  ∧ (norm3 a = 0 ∨ norm3 m = 0 → updateMARG g a m q beta dt = some q) := by
  constructor
  · intro h
    simp only [updateIMU]
    rw [if_pos h]
  · intro h
    simp only [updateMARG]
    by_cases h0 : norm3 a = 0
    · rw [if_pos h0]
    · rw [if_neg h0]
      rcases h with h | h
      · exact absurd h h0
      · rw [if_pos h]

/-- C3 witness: zero accelerometer for the IMU update, zero magnetometer
for the MARG update; both return the (deliberately unnormalized) prior
quaternion `(1, 0, 2, 0)` exactly. -/
theorem zero_reference_is_noop_app :
    updateIMU ![1,2,3] ![0,0,0] ![1,0,2,0] (1/10) (1/256) = some ![1,0,2,0]
  ∧ updateMARG ![1,2,3] ![1,0,0] ![0,0,0] ![1,0,2,0] (1/10) (1/256) = some ![1,0,2,0] :=
  ⟨(zero_reference_is_noop ![1,2,3] ![0,0,0] ![0,0,0] ![1,0,2,0] (1/10) (1/256)).1
    (by simp [norm3]),
   (zero_reference_is_noop ![1,2,3] ![1,0,0] ![0,0,0] ![1,0,2,0] (1/10) (1/256)).2
    (Or.inr (by simp [norm3]))⟩

/-- C4 counterexample: the claim states the second entry of the reference
field is the norm of the pair `(hy, hz)` (the last two components of `h`).
At `q = identity`, normalized `mag = [1,0,0]`, the rotated field is
`h = (0,1,0,0)`: the code's `b` (from `np.linalg.norm([h[1], h[2]])`, the
`(hx, hy)` pair) has second entry `1`, while the claimed `‖(hy, hz)‖`
is `0`, so the claimed equality fails at this input. -/
theorem marg_reference_field_claim_false :
    bVec (hvec ![1,0,0,0] ![0,1,0,0])
      ≠ ![0, Real.sqrt (hvec ![1,0,0,0] ![0,1,0,0] 2 ^ 2
            + hvec ![1,0,0,0] ![0,1,0,0] 3 ^ 2), 0,
          hvec ![1,0,0,0] ![0,1,0,0] 3] := by
  have eh : hvec ![1,0,0,0] ![0,1,0,0] = ![0,1,0,0] := by
    funext i
    fin_cases i <;>
      simp [hvec, q_prod, q_conj, Matrix.cons_val_zero, Matrix.cons_val_one,
        Matrix.head_cons, Matrix.cons_val_two, Matrix.cons_val_three,
        Matrix.tail_cons, Matrix.vecHead, Matrix.vecTail]
  rw [eh]
  intro heq
  have h1 := congrFun heq 1
  norm_num [bVec, Matrix.cons_val_zero, Matrix.cons_val_one,
    Matrix.head_cons, Matrix.cons_val_two, Matrix.cons_val_three,
    Matrix.tail_cons, Matrix.vecHead, Matrix.vecTail] at h1

/-- C4 (amended): in `updateMARG`, after normalizing `m` and `q`, the
rotated field is `h = product(q, product([0,mx,my,mz], conjugate(q)))` and
the reference field used for the magnetic error rows is
`b = [0, ‖(hx, hy)‖, 0, hz]` — the second entry is the norm of the pair
`(hx, hy)` (the first two vector components of `h`), not `(hy, hz)`. -/
theorem marg_reference_field (g a m : Fin 3 → ℝ) (q : Fin 4 → ℝ)
    (beta dt : ℝ) (ha : norm3 a ≠ 0) (hm : norm3 m ≠ 0) (hq : norm4 q ≠ 0) :
    (∀ p w : Fin 4 → ℝ, hvec p w = q_prod p (q_prod w (q_conj p)))
  ∧ (∀ h : Fin 4 → ℝ, bVec h = ![0, Real.sqrt (h 1 ^ 2 + h 2 ^ 2), 0, h 3])
  ∧ updateMARG g a m q beta dt
      = margTail g (normalize4 q) (normalize3 a) (normalize3 m)
          (bVec (hvec (normalize4 q)
            ![0, normalize3 m 0, normalize3 m 1, normalize3 m 2])) beta dt :=
  ⟨fun _ _ => rfl, fun _ => rfl, updateMARG_unfold g a m q beta dt ha hm hq⟩

/-- C4 witness: the amended statement applied at a concrete
non-degenerate input. -/
theorem marg_reference_field_app :
    updateMARG ![0,0,0] ![1,0,0] ![1,0,0] ![1,0,0,0] (3/4) 1
      = margTail ![0,0,0] (normalize4 ![1,0,0,0]) (normalize3 ![1,0,0])
          (normalize3 ![1,0,0])
          (bVec (hvec (normalize4 ![1,0,0,0])
            ![0, normalize3 ![1,0,0] 0, normalize3 ![1,0,0] 1,
              normalize3 ![1,0,0] 2])) (3/4) 1 :=
  (marg_reference_field ![0,0,0] ![1,0,0] ![1,0,0] ![1,0,0,0] (3/4) 1
    (by simp [norm3]) (by simp [norm3]) (by simp [norm4])).2.2

theorem hasDerivAt_affine (c d x : ℝ) : HasDerivAt (fun t => c + d * t) d x := by
  simpa using ((hasDerivAt_id x).const_mul d).const_add c

theorem hasDerivAt_quadratic (c e x : ℝ) :
    HasDerivAt (fun t => c + e * t ^ 2) (2 * e * x) x := by
  have h1 : HasDerivAt (fun t : ℝ => t ^ 2) (2 * x) x := by
    simpa using hasDerivAt_pow 2 x
  have h2 := (h1.const_mul e).const_add c
  convert h2 using 1
  ring

/-- C5: in `updateIMU` the error vector `F` equals
`[2(qx·qz − qw·qy) − ax, 2(qw·qx + qy·qz) − ay, 2(0.5 − qx² − qy²) − az]`,
it decomposes as (gravity-prediction map) − (measured accel), the descent
direction is built from the matrix `J` as `Jᵀ·F`, and every entry of `J` is
the partial derivative of the corresponding component of the
gravity-prediction map with respect to the corresponding quaternion
coordinate: `J` is the analytic Jacobian. -/
theorem imu_error_vector_and_jacobian (qw qx qy qz : ℝ) (a : Fin 3 → ℝ) :
    (Fimu ![qw,qx,qy,qz] a
      = ![2 * (qx * qz - qw * qy) - a 0, 2 * (qw * qx + qy * qz) - a 1,
          2 * (0.5 - qx ^ 2 - qy ^ 2) - a 2])
  ∧ (∀ i, Fimu ![qw,qx,qy,qz] a i = gravPred ![qw,qx,qy,qz] i - a i)
  ∧ (∀ p : Fin 4 → ℝ, ∀ v : Fin 3 → ℝ, ∀ j,
      stepIMU p v j = ∑ i : Fin 3, Jimu p i j * Fimu p v i)
  ∧ (∀ i, HasDerivAt (fun t => gravPred ![t,qx,qy,qz] i)
      (Jimu ![qw,qx,qy,qz] i 0) qw)
  ∧ (∀ i, HasDerivAt (fun t => gravPred ![qw,t,qy,qz] i)
      (Jimu ![qw,qx,qy,qz] i 1) qx)
  ∧ (∀ i, HasDerivAt (fun t => gravPred ![qw,qx,t,qz] i)
      (Jimu ![qw,qx,qy,qz] i 2) qy)
  ∧ (∀ i, HasDerivAt (fun t => gravPred ![qw,qx,qy,t] i)
      (Jimu ![qw,qx,qy,qz] i 3) qz) := by
  refine ⟨rfl, fun i => ?_, fun p v j => rfl, fun i => ?_, fun i => ?_,
    fun i => ?_, fun i => ?_⟩
  · fin_cases i <;> rfl
  · fin_cases i
    · show HasDerivAt (fun t => gravPred ![t,qx,qy,qz] 0)
          (Jimu ![qw,qx,qy,qz] 0 0) qw
      have e : (fun t => gravPred ![t,qx,qy,qz] 0)
          = fun t => 2 * (qx * qz) + (-(2 * qy)) * t := by
        funext t
        show 2 * (qx * qz - t * qy) = _
        ring
      rw [e]
      convert hasDerivAt_affine (2 * (qx * qz)) (-(2 * qy)) qw using 1
      show -2 * qy = -(2 * qy)
      ring
    · show HasDerivAt (fun t => gravPred ![t,qx,qy,qz] 1)
          (Jimu ![qw,qx,qy,qz] 1 0) qw
      have e : (fun t => gravPred ![t,qx,qy,qz] 1)
          = fun t => 2 * (qy * qz) + (2 * qx) * t := by
        funext t
        show 2 * (t * qx + qy * qz) = _
        ring
      rw [e]
      exact hasDerivAt_affine (2 * (qy * qz)) (2 * qx) qw
    · show HasDerivAt (fun t => gravPred ![t,qx,qy,qz] 2)
          (Jimu ![qw,qx,qy,qz] 2 0) qw
      have e : (fun t => gravPred ![t,qx,qy,qz] 2)
          = fun t => 2 * (0.5 - qx ^ 2 - qy ^ 2) + 0 * t := by
        funext t
        show 2 * (0.5 - qx ^ 2 - qy ^ 2) = _
        ring
      rw [e]
      exact hasDerivAt_affine (2 * (0.5 - qx ^ 2 - qy ^ 2)) 0 qw
  · fin_cases i
    · show HasDerivAt (fun t => gravPred ![qw,t,qy,qz] 0)
          (Jimu ![qw,qx,qy,qz] 0 1) qx
      have e : (fun t => gravPred ![qw,t,qy,qz] 0)
          = fun t => -(2 * (qw * qy)) + (2 * qz) * t := by
        funext t
        show 2 * (t * qz - qw * qy) = _
        ring
      rw [e]
      exact hasDerivAt_affine (-(2 * (qw * qy))) (2 * qz) qx
    · show HasDerivAt (fun t => gravPred ![qw,t,qy,qz] 1)
          (Jimu ![qw,qx,qy,qz] 1 1) qx
      have e : (fun t => gravPred ![qw,t,qy,qz] 1)
          = fun t => 2 * (qy * qz) + (2 * qw) * t := by
        funext t
        show 2 * (qw * t + qy * qz) = _
        ring
      rw [e]
      exact hasDerivAt_affine (2 * (qy * qz)) (2 * qw) qx
    · show HasDerivAt (fun t => gravPred ![qw,t,qy,qz] 2)
          (Jimu ![qw,qx,qy,qz] 2 1) qx
      have e : (fun t => gravPred ![qw,t,qy,qz] 2)
          = fun t => (2 * (0.5 - qy ^ 2)) + (-2) * t ^ 2 := by
        funext t
        show 2 * (0.5 - t ^ 2 - qy ^ 2) = _
        ring
      rw [e]
      convert hasDerivAt_quadratic (2 * (0.5 - qy ^ 2)) (-2) qx using 1
      show -4 * qx = 2 * (-2) * qx
      ring
  · fin_cases i
    · show HasDerivAt (fun t => gravPred ![qw,qx,t,qz] 0)
          (Jimu ![qw,qx,qy,qz] 0 2) qy
      have e : (fun t => gravPred ![qw,qx,t,qz] 0)
          = fun t => 2 * (qx * qz) + (-(2 * qw)) * t := by
        funext t
        show 2 * (qx * qz - qw * t) = _
        ring
      rw [e]
      convert hasDerivAt_affine (2 * (qx * qz)) (-(2 * qw)) qy using 1
      show -2 * qw = -(2 * qw)
      ring
    · show HasDerivAt (fun t => gravPred ![qw,qx,t,qz] 1)
          (Jimu ![qw,qx,qy,qz] 1 2) qy
      have e : (fun t => gravPred ![qw,qx,t,qz] 1)
          = fun t => 2 * (qw * qx) + (2 * qz) * t := by
        funext t
        show 2 * (qw * qx + t * qz) = _
        ring
      rw [e]
      exact hasDerivAt_affine (2 * (qw * qx)) (2 * qz) qy
    · show HasDerivAt (fun t => gravPred ![qw,qx,t,qz] 2)
          (Jimu ![qw,qx,qy,qz] 2 2) qy
      have e : (fun t => gravPred ![qw,qx,t,qz] 2)
          = fun t => (2 * (0.5 - qx ^ 2)) + (-2) * t ^ 2 := by
        funext t
        show 2 * (0.5 - qx ^ 2 - t ^ 2) = _
        ring
      rw [e]
      convert hasDerivAt_quadratic (2 * (0.5 - qx ^ 2)) (-2) qy using 1
      show -4 * qy = 2 * (-2) * qy
      ring
  · fin_cases i
    · show HasDerivAt (fun t => gravPred ![qw,qx,qy,t] 0)
          (Jimu ![qw,qx,qy,qz] 0 3) qz
      have e : (fun t => gravPred ![qw,qx,qy,t] 0)
          = fun t => -(2 * (qw * qy)) + (2 * qx) * t := by
        funext t
        show 2 * (qx * t - qw * qy) = _
        ring
      rw [e]
      exact hasDerivAt_affine (-(2 * (qw * qy))) (2 * qx) qz
    · show HasDerivAt (fun t => gravPred ![qw,qx,qy,t] 1)
          (Jimu ![qw,qx,qy,qz] 1 3) qz
      have e : (fun t => gravPred ![qw,qx,qy,t] 1)
          = fun t => 2 * (qw * qx) + (2 * qy) * t := by
        funext t
        show 2 * (qw * qx + qy * t) = _
        ring
      rw [e]
      exact hasDerivAt_affine (2 * (qw * qx)) (2 * qy) qz
    · show HasDerivAt (fun t => gravPred ![qw,qx,qy,t] 2)
          (Jimu ![qw,qx,qy,qz] 2 3) qz
      have e : (fun t => gravPred ![qw,qx,qy,t] 2)
          = fun t => 2 * (0.5 - qx ^ 2 - qy ^ 2) + 0 * t := by
        funext t
        show 2 * (0.5 - qx ^ 2 - qy ^ 2) = _
        ring
      rw [e]
      exact hasDerivAt_affine (2 * (0.5 - qx ^ 2 - qy ^ 2)) 0 qz

/-- The reference field of `updateMARG` as a function of the raw inputs:
`bVec` of the rotated, normalized magnetometer reading. -/
def margB (m : Fin 3 → ℝ) (q : Fin 4 → ℝ) : Fin 4 → ℝ :=
  bVec (hvec (normalize4 q)
    ![0, normalize3 m 0, normalize3 m 1, normalize3 m 2])

/-- C6: on the non-degenerate path of both updates, with `q1` the normalized
prior and `step1` the normalized descent direction, the rate of change is
`qDot = 0.5·product(q1,[0,gx,gy,gz]) − beta·step1` and the returned
quaternion is `normalize(q1 + qDot·samplePeriod)`. -/
theorem update_integration_formula (g a m : Fin 3 → ℝ) (q : Fin 4 → ℝ)
    (beta dt : ℝ) :
    (norm3 a ≠ 0 → norm4 q ≠ 0 →
      norm4 (stepIMU (normalize4 q) (normalize3 a)) ≠ 0 →
      norm4 (fun i => normalize4 q i
        + (0.5 * q_prod (normalize4 q) ![0, g 0, g 1, g 2] i
           - beta * (stepIMU (normalize4 q) (normalize3 a) i
                      / norm4 (stepIMU (normalize4 q) (normalize3 a)))) * dt) ≠ 0 →
      updateIMU g a q beta dt
        = some (normalize4 (fun i => normalize4 q i
            + (0.5 * q_prod (normalize4 q) ![0, g 0, g 1, g 2] i
               - beta * (stepIMU (normalize4 q) (normalize3 a) i
                          / norm4 (stepIMU (normalize4 q) (normalize3 a)))) * dt)))
  ∧ (norm3 a ≠ 0 → norm3 m ≠ 0 → norm4 q ≠ 0 →
      norm4 (stepMARG (normalize4 q) (normalize3 a) (normalize3 m) (margB m q)) ≠ 0 →
      norm4 (fun i => normalize4 q i
        + (0.5 * q_prod (normalize4 q) ![0, g 0, g 1, g 2] i
           - beta * (stepMARG (normalize4 q) (normalize3 a) (normalize3 m) (margB m q) i
                      / norm4 (stepMARG (normalize4 q) (normalize3 a) (normalize3 m)
                          (margB m q)))) * dt) ≠ 0 →
      updateMARG g a m q beta dt
        = some (normalize4 (fun i => normalize4 q i
            + (0.5 * q_prod (normalize4 q) ![0, g 0, g 1, g 2] i
               - beta * (stepMARG (normalize4 q) (normalize3 a) (normalize3 m)
                          (margB m q) i
                          / norm4 (stepMARG (normalize4 q) (normalize3 a) (normalize3 m)
                              (margB m q)))) * dt))) := by
  constructor
  · exact fun ha hq hs hi => updateIMU_unfold g a q beta dt ha hq hs hi
  · intro ha hm hq hs hi
    rw [updateMARG_unfold g a m q beta dt ha hm hq]
    exact margTail_unfold g (normalize4 q) (normalize3 a) (normalize3 m)
      (margB m q) beta dt hs hi

/-- C6 witness: both hypotheses hold at the concrete non-degenerate run,
so both updates return a quaternion there. -/
theorem update_integration_formula_app :
    (updateIMU ![0,0,0] ![1,0,0] ![1,0,0,0] (3/4) 1).isSome = true
  ∧ (updateMARG ![0,0,0] ![1,0,0] ![1,0,0] ![1,0,0,0] (3/4) 1).isSome = true := by
  have en4 : normalize4 ![1,0,0,0] = ![1,0,0,0] := by
    funext i
    norm_num [normalize4, norm4]
  have en3 : normalize3 ![1,0,0] = ![1,0,0] := by
    funext i
    norm_num [normalize3, norm3]
  have es : stepIMU ![1,0,0,0] ![1,0,0] = ![0,0,2,0] := by
    funext j
    fin_cases j <;>
      norm_num [stepIMU, Jimu, Fimu, Fin.sum_univ_three,
        Matrix.cons_val_zero, Matrix.cons_val_one, Matrix.head_cons,
        Matrix.cons_val_two, Matrix.cons_val_three,
        Matrix.tail_cons, Matrix.vecHead, Matrix.vecTail]
  have es4 : norm4 ![0,0,2,0] = 2 := by
    rw [show norm4 ![0,0,2,0] = Real.sqrt 4 by norm_num [norm4],
      show (4:ℝ) = 2 ^ 2 by norm_num]
    exact Real.sqrt_sq (by norm_num)
  have eh : hvec ![1,0,0,0] ![0,1,0,0] = ![0,1,0,0] := by
    funext i
    fin_cases i <;>
      simp [hvec, q_prod, q_conj, Matrix.cons_val_zero, Matrix.cons_val_one,
        Matrix.head_cons, Matrix.cons_val_two, Matrix.cons_val_three,
        Matrix.tail_cons, Matrix.vecHead, Matrix.vecTail]
  have eb : bVec ![0,1,0,0] = ![0,1,0,0] := by
    funext i
    fin_cases i <;>
      simp [bVec, Matrix.cons_val_zero, Matrix.cons_val_one,
        Matrix.head_cons, Matrix.cons_val_two, Matrix.cons_val_three,
        Matrix.tail_cons, Matrix.vecHead, Matrix.vecTail]
  have emB : margB ![1,0,0] ![1,0,0,0] = ![0,1,0,0] := by
    rw [margB, en4, en3]
    rw [show ![(0:ℝ), (![1,0,0] : Fin 3 → ℝ) 0, (![1,0,0] : Fin 3 → ℝ) 1,
        (![1,0,0] : Fin 3 → ℝ) 2] = ![0,1,0,0] from by
      funext i
      fin_cases i <;> norm_num]
    rw [eh, eb]
  have esM : stepMARG ![1,0,0,0] ![1,0,0] ![1,0,0] ![0,1,0,0] = ![0,0,2,0] := by
    funext j
    fin_cases j <;>
      norm_num [stepMARG, Jmarg, Fmarg, Fin.sum_univ_succ,
        Matrix.cons_val_zero, Matrix.cons_val_one, Matrix.head_cons,
        Matrix.cons_val_two, Matrix.cons_val_three, Matrix.cons_val_succ,
        Matrix.tail_cons, Matrix.vecHead, Matrix.vecTail]
  have h25 : Real.sqrt (25/16) = 5/4 := by
    rw [show (25/16:ℝ) = (5/4) ^ 2 by norm_num]
    exact Real.sqrt_sq (by norm_num)
  constructor
  · rw [(update_integration_formula ![0,0,0] ![1,0,0] ![1,0,0] ![1,0,0,0]
        (3/4) 1).1
      (by norm_num [norm3]) (by norm_num [norm4])
      (by rw [en4, en3, es, es4]; norm_num)
      (by
        rw [en4, en3, es, es4]
        norm_num [norm4, q_prod, h25])]
    rfl
  · rw [(update_integration_formula ![0,0,0] ![1,0,0] ![1,0,0] ![1,0,0,0]
        (3/4) 1).2
      (by norm_num [norm3]) (by norm_num [norm3]) (by norm_num [norm4])
      (by rw [en4, en3, emB, esM, es4]; norm_num)
      (by
        rw [en4, en3, emB, esM, es4]
        norm_num [norm4, q_prod, h25])]
    rfl

/-- C8: scaling the accelerometer (and, for MARG, the magnetometer) sample
by any positive constant leaves the output quaternion unchanged, because
both samples are normalized internally; the degenerate zero-norm guard is
also invariant under positive scaling. -/
theorem update_scale_invariance (g a m : Fin 3 → ℝ) (q : Fin 4 → ℝ)
    (beta dt c d : ℝ) :
    (0 < c → updateIMU g (fun i => c * a i) q beta dt = updateIMU g a q beta dt)
  ∧ (0 < c → 0 < d →
      updateMARG g (fun i => c * a i) (fun i => d * m i) q beta dt
        = updateMARG g a m q beta dt) := by
  constructor
  · intro hc
    have hn : norm3 (fun i => c * a i) = c * norm3 a := norm3_smul c hc.le a
    by_cases h0 : norm3 a = 0
    · simp [updateIMU, hn, h0]
    · have hc0 : c * norm3 a ≠ 0 := mul_ne_zero (ne_of_gt hc) h0
      have eac : ∀ x : ℝ, c * x / (c * norm3 a) = x / norm3 a :=
        fun x => mul_div_mul_left _ _ (ne_of_gt hc)
      simp only [updateIMU, hn, eac]
      rw [if_neg hc0, if_neg h0]
  · intro hc hd
    have hna : norm3 (fun i => c * a i) = c * norm3 a := norm3_smul c hc.le a
    have hnm : norm3 (fun i => d * m i) = d * norm3 m := norm3_smul d hd.le m
    by_cases h0 : norm3 a = 0
    · simp [updateMARG, hna, h0]
    · have hc0 : c * norm3 a ≠ 0 := mul_ne_zero (ne_of_gt hc) h0
      have eac : ∀ x : ℝ, c * x / (c * norm3 a) = x / norm3 a :=
        fun x => mul_div_mul_left _ _ (ne_of_gt hc)
      by_cases h1 : norm3 m = 0
      · simp [updateMARG, hna, hnm, h0, h1, hc0]
      · have hd0 : d * norm3 m ≠ 0 := mul_ne_zero (ne_of_gt hd) h1
        have emc : ∀ x : ℝ, d * x / (d * norm3 m) = x / norm3 m :=
          fun x => mul_div_mul_left _ _ (ne_of_gt hd)
        simp only [updateMARG, hna, hnm, eac, emc]
        rw [if_neg hc0, if_neg h0, if_neg hd0, if_neg h1]

/-- C8 witness: the invariance applied with scale factors 2 and 3 at a
concrete input. -/
theorem update_scale_invariance_app :
    updateIMU ![0,0,0] ![2,0,0] ![1,0,0,0] (3/4) 1
      = updateIMU ![0,0,0] ![1,0,0] ![1,0,0,0] (3/4) 1
  ∧ updateMARG ![0,0,0] ![2,0,0] ![3,0,0] ![1,0,0,0] (3/4) 1
      = updateMARG ![0,0,0] ![1,0,0] ![1,0,0] ![1,0,0,0] (3/4) 1 := by
  have e2 : (![2,0,0] : Fin 3 → ℝ) = fun i => 2 * (![1,0,0] : Fin 3 → ℝ) i := by
    funext i
    fin_cases i <;> norm_num
  have e3 : (![3,0,0] : Fin 3 → ℝ) = fun i => 3 * (![1,0,0] : Fin 3 → ℝ) i := by
    funext i
    fin_cases i <;> norm_num
  rw [e2, e3]
  exact ⟨(update_scale_invariance ![0,0,0] ![1,0,0] ![1,0,0] ![1,0,0,0]
      (3/4) 1 2 3).1 (by norm_num),
    (update_scale_invariance ![0,0,0] ![1,0,0] ![1,0,0] ![1,0,0,0]
      (3/4) 1 2 3).2 (by norm_num) (by norm_num)⟩

/-- C9: when the zero-norm guards pass, both updates mutate the caller-owned
arrays in place: the accelerometer (and magnetometer) argument holds the
unit vector after the call, and the quaternion argument holds the value the
call returns (the function returns the very object it mutated). -/
theorem update_frame_effects (g a m : Fin 3 → ℝ) (q : Fin 4 → ℝ)
    (beta dt : ℝ) :
    (norm3 a ≠ 0 →
      (updateIMUproc g a q beta dt).accel = normalize3 a
      ∧ (updateIMUproc g a q beta dt).quat = updateIMU g a q beta dt)
  ∧ (norm3 a ≠ 0 → norm3 m ≠ 0 →
      (updateMARGproc g a m q beta dt).accel = normalize3 a
      ∧ (updateMARGproc g a m q beta dt).mag = normalize3 m
      ∧ (updateMARGproc g a m q beta dt).quat = updateMARG g a m q beta dt) := by
  constructor
  · intro ha
    simp only [updateIMUproc, if_neg ha]
    exact ⟨rfl, trivial⟩
  · intro ha hm
    simp only [updateMARGproc, if_neg ha, if_neg hm]
    exact ⟨rfl, rfl, trivial⟩

/-- C9 witness: with `accel = (2,0,0)` and `mag = (0,3,0)` the caller's
arrays hold the unit vectors `(1,0,0)` and `(0,1,0)` after the call —
they were visibly overwritten. -/
theorem update_frame_effects_app :
    (updateIMUproc ![0,0,0] ![2,0,0] ![1,0,0,0] (1/10) (1/256)).accel = ![1,0,0]
  ∧ (updateMARGproc ![0,0,0] ![2,0,0] ![0,3,0] ![1,0,0,0] (1/10) (1/256)).accel
      = ![1,0,0]
  ∧ (updateMARGproc ![0,0,0] ![2,0,0] ![0,3,0] ![1,0,0,0] (1/10) (1/256)).mag
      = ![0,1,0] := by
  have h2 : norm3 ![2,0,0] = 2 := by
    rw [show norm3 ![2,0,0] = Real.sqrt 4 by norm_num [norm3],
      show (4:ℝ) = 2 ^ 2 by norm_num]
    exact Real.sqrt_sq (by norm_num)
  have h3 : norm3 ![0,3,0] = 3 := by
    rw [show norm3 ![0,3,0] = Real.sqrt 9 by norm_num [norm3],
      show (9:ℝ) = 3 ^ 2 by norm_num]
    exact Real.sqrt_sq (by norm_num)
  have e1 := (update_frame_effects ![0,0,0] ![2,0,0] ![0,3,0] ![1,0,0,0]
    (1/10) (1/256)).1 (by rw [h2]; norm_num)
  have e2 := (update_frame_effects ![0,0,0] ![2,0,0] ![0,3,0] ![1,0,0,0]
    (1/10) (1/256)).2 (by rw [h2]; norm_num) (by rw [h3]; norm_num)
  refine ⟨?_, ?_, ?_⟩
  · rw [e1.1]
    funext i
    fin_cases i <;> norm_num [normalize3, h2]
  · rw [e2.1]
    funext i
    fin_cases i <;> norm_num [normalize3, h2]
  · rw [e2.2.1]
    funext i
    fin_cases i <;> norm_num [normalize3, h3]

/-- C10: in `updateMARG`, when the accelerometer norm is non-zero but the
magnetometer norm is zero, the prior quaternion is returned unchanged —
but the caller's accelerometer array has already been normalized in place
before the early return: the degenerate-magnetometer path is not atomic. -/
theorem marg_mag_dropout_not_atomic (g a m : Fin 3 → ℝ) (q : Fin 4 → ℝ)
    (beta dt : ℝ) (ha : norm3 a ≠ 0) (hm : norm3 m = 0) :
    (updateMARGproc g a m q beta dt).accel = normalize3 a
  ∧ (updateMARGproc g a m q beta dt).mag = m
  ∧ (updateMARGproc g a m q beta dt).quat = some q := by
  simp only [updateMARGproc, if_neg ha, if_pos hm]
  exact ⟨rfl, trivial, trivial⟩

/-- C10 witness: with `accel = (2,0,0)` and a dropped-out magnetometer the
returned quaternion is the untouched prior, yet the accelerometer array now
holds `(1,0,0)`, not the caller's original `(2,0,0)`. -/
theorem marg_mag_dropout_not_atomic_app :
    (updateMARGproc ![0,0,0] ![2,0,0] ![0,0,0] ![1,0,2,0] (1/10) (1/256)).accel
      = ![1,0,0]
  ∧ (updateMARGproc ![0,0,0] ![2,0,0] ![0,0,0] ![1,0,2,0] (1/10) (1/256)).quat
      = some ![1,0,2,0] := by
  have h2 : norm3 ![2,0,0] = 2 := by
    rw [show norm3 ![2,0,0] = Real.sqrt 4 by norm_num [norm3],
      show (4:ℝ) = 2 ^ 2 by norm_num]
    exact Real.sqrt_sq (by norm_num)
  have e := marg_mag_dropout_not_atomic ![0,0,0] ![2,0,0] ![0,0,0] ![1,0,2,0]
    (1/10) (1/256) (by rw [h2]; norm_num) (by simp [norm3])
  refine ⟨?_, e.2.2⟩
  rw [e.1]
  funext i
  fin_cases i <;> norm_num [normalize3, h2]
